import Mathlib

/-!
Verification of the db-migration tool (Go sources under internal/migration,
internal/git) against its natural-language specification.

The embedding models:
  * the tracking table `sqlScriptExec` as a list of `ScriptRecord` kept in
    `sno`-ascending order (the order every SQL query of the tracker uses);
  * the git CLI surface consumed by the program (`diff --name-only`,
    `diff --name-status`, `rev-parse HEAD`, first-added commit timestamps)
    as an environment of pure functions (`GitEnv`);
  * the database effects of executed scripts as the list of committed
    script names (`DbState.applied`); rolling a transaction back leaves
    that list unchanged;
  * fallible operations as `Except String`; a Go runtime panic (slice out
    of range) is modelled as `Option.none`.

Database-level failures of the tracking-table reads/writes themselves and
git subprocess failures are not modelled: the claims under study condition
only on SQL-script execution outcomes and on the data returned by git.
-/

namespace DbMigration

/-- One row of the `sqlScriptExec` tracking table (tracker.go, `ScriptRecord`).
`lastgitid` is nullable in the schema, hence `Option String`. The
`createddatetime` / `modifieddatetime` columns play no role in any claim and
are omitted. -/
structure ScriptRecord where
  sno : Nat
  scriptName : String
  completed : Bool
  endofbatch : Bool
  lastgitid : Option String
  deriving Repr, DecidableEq

/-- The query `SELECT ... WHERE endofbatch = 1 ORDER BY sno DESC LIMIT 1`:
the terminator row with the greatest `sno`, if any (ties broken towards
the later row; `sno` is a primary key so ties do not occur in real
tables). `maxStep` is its fold step. -/
def maxStep (acc : Option ScriptRecord) (r : ScriptRecord) : Option ScriptRecord :=
  match acc with
  | none => some r
  | some a => if a.sno ≤ r.sno then some r else some a

def lastTerminator (ledger : List ScriptRecord) : Option ScriptRecord :=
  (ledger.filter (·.endofbatch)).foldl maxStep none

/-- tracker.go `GetLastSuccessfulCommit`: git id of the last successful
batch. `sql.ErrNoRows` (no terminator row) yields `("", nil)`; a NULL
`lastgitid` (`!lastGitID.Valid`) also yields `("", nil)`. -/
def GetLastSuccessfulCommit (ledger : List ScriptRecord) : Except String String :=
  match lastTerminator ledger with
  | none => .ok ""
  | some r =>
    match r.lastgitid with
    | none => .ok ""
    | some s => .ok s

/-- tracker.go `GetExecutedScriptNames`:
`SELECT scriptName FROM sqlScriptExec WHERE completed = 1`. -/
def GetExecutedScriptNames (ledger : List ScriptRecord) : List String :=
  (ledger.filter (·.completed)).map (·.scriptName)

/-- The AUTO_INCREMENT value the next inserted row receives. -/
def nextSno (ledger : List ScriptRecord) : Nat :=
  (ledger.map (·.sno)).foldr max 0 + 1

/-- tracker.go `RecordExecution` / `RecordExecutionDirect`: INSERT one row.
Both modes write the same row; the transactional/non-transactional
distinction shows up in `executeScript` through which database effects
survive. -/
def appendRecord (ledger : List ScriptRecord) (scriptName : String)
    (completed endofbatch : Bool) (gitID : String) : List ScriptRecord :=
  ledger ++ [⟨nextSno ledger, scriptName, completed, endofbatch, some gitID⟩]

/-- tracker.go `GetHalfCommittedScripts`: rows with `sno` greater than the
last terminator's `sno` (0 when no terminator row exists), in `sno` order. -/
def GetHalfCommittedScripts (ledger : List ScriptRecord) : List ScriptRecord :=
  let lastBatchSNO :=
    match lastTerminator ledger with
    | none => 0
    | some r => r.sno
  ledger.filter (fun r => lastBatchSNO < r.sno)

/-! ### Go path and string helpers (`path/filepath`, `strings`)

Implemented over `List Char` by structural recursion so that concrete
instances evaluate inside the kernel. -/

/-- Decides whether the first list is a prefix of the second. -/
def listLeads : List Char → List Char → Bool
  | [], _ => true
  | _ :: _, [] => false
  | a :: as, b :: bs => a = b && listLeads as bs

/-- Decides whether `sub` occurs contiguously inside the second list. -/
def listInside (sub : List Char) : List Char → Bool
  | [] => listLeads sub []
  | c :: rest => listLeads sub (c :: rest) || listInside sub rest

/-- Go `strings.Contains`. -/
def goContains (s sub : String) : Bool := listInside sub.toList s.toList

/-- Go `strings.HasSuffix`. -/
def goHasSuffix (s suffix : String) : Bool :=
  listLeads suffix.toList.reverse s.toList.reverse

/-- Go `strings.HasPrefix`, also the meaning of `s[:len(p)] == p` when the
slice is in bounds. -/
def goStartsWith (s p : String) : Bool := listLeads p.toList s.toList

/-- Go `filepath.Base` for slash-separated paths: empty input gives ".",
all-slashes input gives "/", otherwise the component after the last "/"
(after stripping trailing slashes). -/
def goBase (path : String) : String :=
  if path = "" then "."
  else
    let trimmed := (path.toList.reverse.dropWhile (· = '/')).reverse
    if trimmed = [] then "/"
    else String.mk ((trimmed.reverse.takeWhile (· ≠ '/')).reverse)

/-- Go `filepath.Dir` restricted to already-clean slash-separated paths
(the form git diff emits): everything before the last "/" with trailing
slashes stripped, "." when there is no slash, "/" for a path directly
under the root. -/
def goDir (path : String) : String :=
  let cs := path.toList
  let pre := (cs.reverse.dropWhile (· ≠ '/')).reverse
  if pre = [] then "."
  else
    let cleaned := (pre.reverse.dropWhile (· = '/')).reverse
    if cleaned = [] then "/"
    else String.mk cleaned

/-! ### Git environment (git.go) -/

/-- The data the git CLI would return for the queries git.go issues.
`diffNames from to` models `git diff --name-only from to`; `diffStatus`
models `git diff --name-status from to` as (path, status) pairs;
`fileTimestamp` models `git log --follow --diff-filter=A --format=%ct -1`
(first-added commit time, with the current-time fallback already folded
in, since the code falls back silently). -/
structure GitEnv where
  isRepo : Bool
  currentCommit : String
  emptyTree : String
  diffNames : String → String → List String
  diffStatus : String → String → List (String × String)
  fileTimestamp : String → Nat

/-- git.go `DiffFileNames`: an empty `fromCommit` is replaced by the empty
tree hash before diffing. -/
def DiffFileNames (env : GitEnv) (fromCommit toCommit : String) : List String :=
  let f := if fromCommit = "" then env.emptyTree else fromCommit
  env.diffNames f toCommit

/-- git.go `DiffFileStatus`: same empty-`fromCommit` handling. -/
def DiffFileStatus (env : GitEnv) (fromCommit toCommit : String) :
    List (String × String) :=
  let f := if fromCommit = "" then env.emptyTree else fromCommit
  env.diffStatus f toCommit

/-- git.go `ScriptInfo`. -/
structure ScriptInfo where
  name : String
  path : String
  timestamp : Nat
  deriving Repr, DecidableEq

/-- The directory-scoping condition of `GetChangedScripts` (git.go:154):
`!strings.Contains(relDir, scriptsBase) && relDir != scriptsBase &&
file[:len(scriptsBase)] != scriptsBase`. Go's `&&` short-circuits, so the
byte slice `file[:len(scriptsBase)]` is evaluated only when the first two
conjuncts hold; it panics (slice out of range) when the file path is
byte-shorter than the scripts-directory base name. `none` models that
panic. -/
def scopeCond (file scriptsBase : String) : Option Bool :=
  if goContains (goDir file) scriptsBase then some false
  else if goDir file = scriptsBase then some false
  else if file.utf8ByteSize < scriptsBase.utf8ByteSize then none
  else some (!goStartsWith file scriptsBase)

/-- The per-file loop body of `GetChangedScripts` (git.go:145-171), before
sorting: keep every `.sql`-suffixed file (the inner `continue` re-checks
the `.sql` suffix, which is already known to hold, so it is dead code);
propagate a panic of the scoping condition. -/
def collectScripts (env : GitEnv) (scriptsBase : String) :
    List String → Option (List ScriptInfo)
  | [] => some []
  | file :: rest =>
    if !goHasSuffix file ".sql" then collectScripts env scriptsBase rest
    else
      match scopeCond file scriptsBase with
      | none => none
      | some cond =>
        let keep : Bool := !(cond && !goHasSuffix file ".sql")
        let info : ScriptInfo := ⟨goBase file, file, env.fileTimestamp file⟩
        match collectScripts env scriptsBase rest with
        | none => none
        | some tail => some (if keep then info :: tail else tail)

/-- Ordering used by the final `sort.Slice` of `GetChangedScripts`
(timestamps ascending). -/
def tsLE (a b : ScriptInfo) : Prop := a.timestamp ≤ b.timestamp

instance : DecidableRel tsLE := fun a b => Nat.decLe a.timestamp b.timestamp

instance : IsTotal ScriptInfo tsLE := ⟨fun a b => Nat.le_total a.timestamp b.timestamp⟩

instance : IsTrans ScriptInfo tsLE := ⟨fun _ _ _ => Nat.le_trans⟩

/-- git.go `GetChangedScripts`: `.sql` files changed between the two
commits, sorted ascending by first-added commit timestamp (Go's
`sort.Slice` is an unstable comparison sort; any correct sort models it).
`none` models a runtime panic inside the loop. -/
def GetChangedScripts (env : GitEnv) (fromCommit toCommit scriptsDir : String) :
    Option (List ScriptInfo) :=
  let files := DiffFileNames env fromCommit toCommit
  let scriptsBase := goBase scriptsDir
  match collectScripts env scriptsBase files with
  | none => none
  | some scripts => some (List.insertionSort tsLE scripts)

/-! ### Validator (validator.go) -/

/-- validator.go `CheckFileModifications`: with no checkpoint commit the
check passes; otherwise every diffed path whose full path or base filename
is a previously executed script and whose status is "M" or "D" accumulates
into the violation lists, and the check fails iff either list is
non-empty. -/
def CheckFileModifications (env : GitEnv) (fromCommit toCommit : String)
    (executedScripts : List String) : Except String Unit :=
  if fromCommit = "" then .ok ()
  else
    let statusMap := DiffFileStatus env fromCommit toCommit
    let relevant := statusMap.filter
      (fun fs => executedScripts.contains fs.1 || executedScripts.contains (goBase fs.1))
    let modified := (relevant.filter (fun fs => fs.2 == "M")).map (·.1)
    let deleted := (relevant.filter (fun fs => fs.2 == "D")).map (·.1)
    if modified.length > 0 ∨ deleted.length > 0 then
      .error ("detected " ++ toString modified.length ++ " modified and "
        ++ toString deleted.length
        ++ " deleted scripts that were previously executed - migration aborted")
    else .ok ()

/-- validator.go `CheckHalfCommittedFiles`: empty input passes; otherwise
the first record with `completed = false` fails the check, naming the
script; all-completed input passes with a warning only. -/
def CheckHalfCommittedFiles (halfCommitted : List ScriptRecord) :
    Except String Unit :=
  if halfCommitted = [] then .ok ()
  else
    match halfCommitted.find? (fun r => !r.completed) with
    | some r => .error ("previous migration batch has failed script: "
        ++ r.scriptName ++ " - manual intervention required")
    | none => .ok ()

/-- Holds exactly on the `.error` constructor. -/
def isErr {ε α : Type} : Except ε α → Bool
  | .error _ => true
  | .ok _ => false

/-! ### Migrator (migrator.go) -/

/-- The mutable state a run touches: the tracking table and the committed
effects of executed SQL scripts (a rollback leaves `applied` unchanged). -/
structure DbState where
  ledger : List ScriptRecord
  applied : List String
  deriving Repr, DecidableEq

/-- The environment of one `Migrator.Run` invocation. `missedScripts` is
the content of the optional missed-scripts file after the line filtering
of `executeMissedScripts` (trimmed, blank and `#` lines dropped); `none`
when no file was supplied. `readOk name` models whether the script's
content can be read (from the scripts directory or the fallback path);
`sqlOk name` models whether executing its statement batch succeeds. -/
structure MigEnv where
  git : GitEnv
  scriptsDir : String
  missedScripts : Option (List String)
  readOk : String → Bool
  sqlOk : String → Bool

/-- migrator.go `executeScript`: read the script, run it inside its own
transaction. On SQL error the transaction is rolled back (no effect on
`applied`) and a failure row `{completed: false, endofbatch: false}` is
written outside the transaction (`RecordExecutionDirect`). On success the
success row `{completed: true, endofbatch: isLast}` is written inside the
same transaction and both commit together. -/
def executeScript (env : MigEnv) (st : DbState) (name : String)
    (gitID : String) (isLast : Bool) : DbState × Except String Unit :=
  if !env.readOk name then
    (st, .error ("failed to read script " ++ name))
  else if env.sqlOk name then
    (⟨appendRecord st.ledger name true isLast gitID, st.applied ++ [name]⟩,
      .ok ())
  else
    (⟨appendRecord st.ledger name false false gitID, st.applied⟩,
      .error ("script execution error in " ++ name))

/-- The loop of migrator.go `executeMissedScripts` (lines 241-262): skip
names already executed (snapshot taken before the loop); otherwise run the
script, `isLast` holding exactly on the literal last line of the file.
Returns the final state, the result, and the names actually attempted. -/
def missedLoop (env : MigEnv) (current : String) (executed : List String) :
    List String → DbState → DbState × Except String Unit × List String
  | [], st => (st, .ok (), [])
  | n :: rest, st =>
    if executed.contains n then missedLoop env current executed rest st
    else
      match executeScript env st n current (rest = []) with
      | (st', .ok ()) =>
        match missedLoop env current executed rest st' with
        | (st'', r, att) => (st'', r, n :: att)
      | (st', .error e) =>
        (st', .error ("failed to execute missed script " ++ n ++ ": " ++ e), [n])

/-- migrator.go `executeMissedScripts`: nothing to do when the parsed list
is empty; otherwise snapshot the executed-script names and run the loop
with the current commit as revision id. -/
def executeMissedScripts (env : MigEnv) (st : DbState) :
    DbState × Except String Unit × List String :=
  match env.missedScripts with
  | none => (st, .ok (), [])
  | some names =>
    if names = [] then (st, .ok (), [])
    else
      missedLoop env env.git.currentCommit (GetExecutedScriptNames st.ledger)
        names st

/-- One `console.Summary(total, success, failed, skipped)` event. -/
structure Summary where
  total : Nat
  succeeded : Nat
  failed : Nat
  skipped : Nat
  deriving Repr, DecidableEq

/-- The execution loop of `Run` (migrator.go lines 128-150): run each
pending script, `isLast` on the final one; on the first failure emit the
summary with the counts accumulated so far and stop with an error naming
the script. Returns (state, result, attempted names, summaries emitted
inside the loop). The success-path summary is emitted by `runModel` after
the loop, as in the source. -/
def mainLoop (env : MigEnv) (current : String) (total skipped : Nat) :
    List ScriptInfo → Nat → DbState →
      DbState × Except String Unit × List String × List Summary
  | [], _, st => (st, .ok (), [], [])
  | s :: rest, succ, st =>
    match executeScript env st s.name current (rest = []) with
    | (st', .ok ()) =>
      match mainLoop env current total skipped rest (succ + 1) st' with
      | (st'', r, att, sums) => (st'', r, s.name :: att, sums)
    | (st', .error _) =>
      (st', .error ("migration failed at script: " ++ s.name), [s.name],
        [⟨total, succ, 1, skipped⟩])

/-- Terminal outcome of `Run`. `panicked` models a Go runtime panic
(string slice out of range). -/
inductive RunResult where
  | ok : RunResult
  | err : String → RunResult
  | panicked : RunResult
  deriving Repr, DecidableEq

/-- Observable outcome of one `Run`: final database state, result,
discovery-loop attempts, missed-path attempts, summary events. -/
structure RunOutcome where
  state : DbState
  result : RunResult
  attempted : List String
  missedAttempted : List String
  summaries : List Summary
  deriving Repr, DecidableEq

/-- migrator.go `Run`, step by step: validate the repository, read the
checkpoint (the `lastGitID[:8]` display slices and panics on a non-empty
checkpoint shorter than 8 bytes, as does `currentCommit[:8]`), run the
missed-scripts file, snapshot executed names, run the tamper and
half-committed checks, discover changed scripts, filter the pending set,
and execute it. Validation failures and the empty-pending success path
return before any summary is emitted. -/
def runModel (env : MigEnv) (st0 : DbState) : RunOutcome :=
  if !env.git.isRepo then
    ⟨st0, .err "scripts directory is not within a git repository", [], [], []⟩
  else
    match GetLastSuccessfulCommit st0.ledger with
    | .error e => ⟨st0, .err e, [], [], []⟩
    | .ok lastGitID =>
      if lastGitID ≠ "" ∧ lastGitID.utf8ByteSize < 8 then
        ⟨st0, .panicked, [], [], []⟩
      else
        match executeMissedScripts env st0 with
        | (st1, .error e, matt) => ⟨st1, .err e, [], matt, []⟩
        | (st1, .ok (), matt) =>
          let executed := GetExecutedScriptNames st1.ledger
          let current := env.git.currentCommit
          if current.utf8ByteSize < 8 then ⟨st1, .panicked, [], matt, []⟩
          else
            match CheckFileModifications env.git lastGitID current executed with
            | .error e => ⟨st1, .err e, [], matt, []⟩
            | .ok () =>
              match CheckHalfCommittedFiles (GetHalfCommittedScripts st1.ledger) with
              | .error e => ⟨st1, .err e, [], matt, []⟩
              | .ok () =>
                match GetChangedScripts env.git lastGitID current env.scriptsDir with
                | none => ⟨st1, .panicked, [], matt, []⟩
                | some scripts =>
                  let pending := scripts.filter
                    (fun s => !executed.contains s.name)
                  if pending = [] then ⟨st1, .ok, [], matt, []⟩
                  else
                    let skipped := scripts.length - pending.length
                    match mainLoop env current scripts.length skipped pending 0 st1 with
                    | (st2, .ok (), att, sums) =>
                      ⟨st2, .ok, att, matt,
                        sums ++ [⟨scripts.length, pending.length, 0, skipped⟩]⟩
                    | (st2, .error e, att, sums) =>
                      ⟨st2, .err e, att, matt, sums⟩

/-! ### Theorems -/

/-- C2: half-committed check — an empty record list (nothing after the
checkpoint) passes; when some record has `completed = false` the check
fails with an error naming a failed script of the list; a non-empty list
whose records are all `completed = true` passes (warning only), even when
none of them is a batch terminator. -/
theorem checkHalfCommittedFiles_cases (hc : List ScriptRecord) :
    (hc = [] → CheckHalfCommittedFiles hc = .ok ()) ∧
    ((∃ r ∈ hc, r.completed = false) →
      ∃ r ∈ hc, r.completed = false ∧
        CheckHalfCommittedFiles hc =
          .error ("previous migration batch has failed script: "
            ++ r.scriptName ++ " - manual intervention required")) ∧
    (hc ≠ [] → (∀ r ∈ hc, r.completed = true) →
      (∀ r ∈ hc, r.endofbatch = false) → CheckHalfCommittedFiles hc = .ok ()) := by
  refine ⟨fun h => by simp [CheckHalfCommittedFiles, h], ?_, ?_⟩
  · rintro ⟨r, hr, hrc⟩
    have hne : hc ≠ [] := by rintro rfl; simp at hr
    match hfind : hc.find? (fun r => !r.completed) with
    | none =>
      exfalso
      have := List.find?_eq_none.mp hfind r hr
      simp [hrc] at this
    | some r0 =>
      refine ⟨r0, List.mem_of_find?_eq_some hfind, ?_, ?_⟩
      · simpa using List.find?_some hfind
      · simp [CheckHalfCommittedFiles, hne, hfind]
  · intro hne hall _
    have hfind : hc.find? (fun r => !r.completed) = none := by
      rw [List.find?_eq_none]
      intro r hr
      simp [hall r hr]
    simp [CheckHalfCommittedFiles, hne, hfind]

/-- Witness for C2 at a one-element list holding a failed record. -/
theorem checkHalfCommittedFiles_cases_witness :
    (∃ r ∈ [(⟨1, "bad.sql", false, false, none⟩ : ScriptRecord)],
        r.completed = false) ∧
    ∃ r ∈ [(⟨1, "bad.sql", false, false, none⟩ : ScriptRecord)],
      r.completed = false ∧
      CheckHalfCommittedFiles [⟨1, "bad.sql", false, false, none⟩] =
        .error ("previous migration batch has failed script: "
          ++ r.scriptName ++ " - manual intervention required") :=
  ⟨⟨⟨1, "bad.sql", false, false, none⟩, by simp, rfl⟩,
    (checkHalfCommittedFiles_cases _).2.1
      ⟨⟨1, "bad.sql", false, false, none⟩, by simp, rfl⟩⟩

lemma foldl_maxStep_some (l : List ScriptRecord) (a : ScriptRecord) :
    ∃ x, l.foldl maxStep (some a) = some x := by
  induction l generalizing a with
  | nil => exact ⟨a, rfl⟩
  | cons h t ih =>
    simp only [List.foldl_cons, maxStep]
    split
    · exact ih h
    · exact ih a

lemma foldl_maxStep_spec (l : List ScriptRecord) (acc : Option ScriptRecord)
    (x : ScriptRecord) (hx : l.foldl maxStep acc = some x) :
    (x ∈ l ∨ acc = some x) ∧ (∀ y ∈ l, y.sno ≤ x.sno) ∧
      (∀ a, acc = some a → a.sno ≤ x.sno) := by
  induction l generalizing acc with
  | nil =>
    simp only [List.foldl_nil] at hx
    refine ⟨Or.inr hx, by simp, fun a ha => ?_⟩
    rw [hx] at ha
    cases ha
    exact le_refl _
  | cons h t ih =>
    simp only [List.foldl_cons] at hx
    obtain ⟨ih1, ih2, ih3⟩ := ih (maxStep acc h) hx
    have hstep : ∀ a, maxStep acc h = some a → h.sno ≤ a.sno := by
      intro a ha
      cases acc with
      | none =>
        simp only [maxStep] at ha
        cases ha
        exact le_refl _
      | some b =>
        simp only [maxStep] at ha
        split at ha <;> (cases ha ; omega)
    have hh : h.sno ≤ x.sno := by
      cases acc with
      | none => exact le_trans (hstep h rfl) (ih3 h rfl)
      | some b =>
        rcases hm : maxStep (some b) h with _ | m
        · simp [maxStep] at hm
          split at hm <;> simp at hm
        · exact le_trans (hstep m hm) (ih3 m hm)
    refine ⟨?_, ?_, ?_⟩
    · rcases ih1 with hmem | heq
      · exact Or.inl (List.mem_cons_of_mem _ hmem)
      · cases acc with
        | none =>
          simp [maxStep] at heq
          exact Or.inl (by rw [← heq]; exact List.mem_cons_self _ _)
        | some b =>
          simp only [maxStep] at heq
          split at heq
          · cases heq
            exact Or.inl (List.mem_cons_self _ _)
          · cases heq
            exact Or.inr rfl
    · intro y hy
      rcases List.mem_cons.mp hy with rfl | hyt
      · exact hh
      · exact ih2 y hyt
    · intro a ha
      subst ha
      cases hm : maxStep (some a) h with
      | none =>
        simp only [maxStep] at hm
        split at hm <;> simp at hm
      | some m =>
        have hmx := ih3 m hm
        simp only [maxStep] at hm
        split at hm
        · cases hm
          omega
        · cases hm
          exact hmx

/-- C10: checkpoint lookup — `GetLastSuccessfulCommit` returns the empty
string without an error both when no batch-terminator row exists at all
and when the terminator row with the greatest ordinal carries a NULL
`lastgitid`; a NULL git id on the latest terminator is silently treated as
a fresh environment. -/
theorem getLastSuccessfulCommit_fresh_cases (ledger : List ScriptRecord) :
    ((∀ r ∈ ledger, r.endofbatch = false) →
      GetLastSuccessfulCommit ledger = .ok "") ∧
    (∀ r ∈ ledger, r.endofbatch = true →
      (∀ q ∈ ledger, q.endofbatch = true → q.sno ≤ r.sno) →
      (ledger.map (·.sno)).Nodup → r.lastgitid = none →
      GetLastSuccessfulCommit ledger = .ok "") := by
  constructor
  · intro hall
    have hfil : ledger.filter (·.endofbatch) = [] := by
      rw [List.filter_eq_nil_iff]
      intro a ha
      simp [hall a ha]
    simp [GetLastSuccessfulCommit, lastTerminator, hfil]
  · intro r hr hrb hmax hnd hnull
    have hrfil : r ∈ ledger.filter (·.endofbatch) := by
      rw [List.mem_filter]
      exact ⟨hr, by simp [hrb]⟩
    have hterm : lastTerminator ledger = some r := by
      rcases hfil : ledger.filter (·.endofbatch) with _ | ⟨f, t⟩
      · rw [hfil] at hrfil; simp at hrfil
      · obtain ⟨x, hxfold⟩ := foldl_maxStep_some t f
        have hfold : lastTerminator ledger = some x := by
          rw [lastTerminator, hfil, List.foldl_cons]
          simpa [maxStep] using hxfold
        obtain ⟨hx1, hx2, _⟩ := foldl_maxStep_spec t (some f) x hxfold
        have hxfil : x ∈ ledger.filter (·.endofbatch) := by
          rw [hfil]
          rcases hx1 with h | h
          · exact List.mem_cons_of_mem _ h
          · cases h; exact List.mem_cons_self _ _
        obtain ⟨hxmem, hxb⟩ := List.mem_filter.mp hxfil
        have hrx : r.sno ≤ x.sno := by
          rw [hfil] at hrfil
          rcases List.mem_cons.mp hrfil with rfl | hrt
          · obtain ⟨_, _, h3⟩ := foldl_maxStep_spec t (some r) x hxfold
            exact h3 r rfl
          · exact hx2 r hrt
        have hxr : x.sno ≤ r.sno := hmax x hxmem (by simpa using hxb)
        have : x = r :=
          List.inj_on_of_nodup_map hnd hxmem hr (by omega)
        rw [hfold, this]
    simp [GetLastSuccessfulCommit, hterm, hnull]

/-- Witness for C10: a ledger whose single (hence greatest-ordinal)
terminator row has a NULL git id. -/
theorem getLastSuccessfulCommit_fresh_cases_witness :
    (∀ q ∈ [(⟨1, "a.sql", true, false, some "x"⟩ : ScriptRecord),
            ⟨2, "b.sql", true, true, none⟩],
        q.endofbatch = true → q.sno ≤ 2) ∧
    GetLastSuccessfulCommit
      [⟨1, "a.sql", true, false, some "x"⟩, ⟨2, "b.sql", true, true, none⟩] =
      .ok "" :=
  ⟨by decide,
    (getLastSuccessfulCommit_fresh_cases _).2 ⟨2, "b.sql", true, true, none⟩
      (by simp) rfl (by decide) (by decide) rfl⟩

/-- C9 (code bug): discovery is not total. The scoping check of
`GetChangedScripts` evaluates `file[:len(scriptsBase)]`, which panics
(slice bounds out of range) on a changed `.sql` path byte-shorter than the
scripts-directory base name once the first two conjuncts fail — here the
root-level file "a.sql" against scripts directory "migration-scripts". -/
theorem getChangedScripts_panics_on_short_path :
    GetChangedScripts
      ⟨true, "dddddddd", "4b825dc6", fun _ _ => ["a.sql"], fun _ _ => [],
        fun _ => 0⟩
      "c1" "c2" "migration-scripts" = none := rfl

/-- Environment of the C8 counterexample: previously executed "a.sql" was
modified after the checkpoint, so the run fails the tamper check. -/
def envTampered : MigEnv where
  git :=
    { isRepo := true
      currentCommit := "dddddddd"
      emptyTree := "4b825dc6"
      diffNames := fun _ _ => ["scripts/b.sql"]
      diffStatus := fun _ _ => [("scripts/a.sql", "M"), ("scripts/b.sql", "A")]
      fileTimestamp := fun _ => 0 }
  scriptsDir := "scripts"
  missedScripts := none
  readOk := fun _ => true
  sqlOk := fun _ => true

/-- Ledger state of the C8 counterexample: one completed batch. -/
def stTampered : DbState :=
  ⟨[⟨1, "a.sql", true, true, some "cccccccc"⟩], ["a.sql"]⟩

/-- C8 counterexample: a run that terminates with a tampered-history
validation failure emits no summary at all, contradicting the claim that
every terminal state emits the run summary. -/
theorem run_tamper_failure_emits_no_summary :
    (runModel envTampered stTampered).result =
      .err ("detected 1 modified and 0 deleted scripts that were previously"
        ++ " executed - migration aborted") ∧
    (runModel envTampered stTampered).summaries = [] := by
  constructor <;> rfl

lemma filtered_nonempty_iff {α : Type} (l : List α) (q : α → Bool) :
    0 < (l.filter q).length ↔ ∃ p ∈ l, q p = true := by
  rw [List.length_pos_iff_exists_mem]
  constructor
  · rintro ⟨a, ha⟩
    obtain ⟨h1, h2⟩ := List.mem_filter.mp ha
    exact ⟨a, h1, h2⟩
  · rintro ⟨p, hp, hq⟩
    exact ⟨p, List.mem_filter.mpr ⟨hp, hq⟩⟩

lemma isErr_ite (c : Prop) [Decidable c] (s : String) :
    isErr (if c then Except.error s else Except.ok ()) = true ↔ c := by
  split <;> simp [isErr, *]

/-- C1: tamper check — with a checkpoint revision, the validation fails
exactly when the diff between checkpoint and current revision contains a
path of status Modified ("M") or Deleted ("D") whose full path or base
filename is among the completed script names; with an empty checkpoint the
check passes for every executed-scripts set and every diff. -/
theorem checkFileModifications_error_iff (env : GitEnv)
    (fromCommit toCommit : String) (ex : List String) :
    isErr (CheckFileModifications env fromCommit toCommit ex) = true ↔
      (fromCommit ≠ "" ∧ ∃ p ∈ DiffFileStatus env fromCommit toCommit,
        (p.2 = "M" ∨ p.2 = "D") ∧ (p.1 ∈ ex ∨ goBase p.1 ∈ ex)) := by
  by_cases h : fromCommit = ""
  · simp [CheckFileModifications, h, isErr]
  · rw [CheckFileModifications, if_neg h]
    simp only []
    rw [isErr_ite]
    simp only [List.length_map, filtered_nonempty_iff, List.mem_filter,
      List.elem_iff, beq_iff_eq, Bool.or_eq_true,
      Bool.and_eq_true, ne_eq, h, not_false_iff, true_and]
    constructor
    · rintro (⟨p, ⟨hp, hin⟩, hM⟩ | ⟨p, ⟨hp, hin⟩, hD⟩)
      · exact ⟨p, hp, Or.inl hM, by simpa using hin⟩
      · exact ⟨p, hp, Or.inr hD, by simpa using hin⟩
    · rintro ⟨p, hp, hMD, hin⟩
      rcases hMD with hM | hD
      · exact Or.inl ⟨p, ⟨hp, by simpa using hin⟩, hM⟩
      · exact Or.inr ⟨p, ⟨hp, by simpa using hin⟩, hD⟩

/-- Git environment of the C4 witness: the diff lists the younger script
first. -/
def envOutOfOrder : GitEnv where
  isRepo := true
  currentCommit := "dddddddd"
  emptyTree := "4b825dc6"
  diffNames := fun _ _ => ["scripts/b.sql", "scripts/a.sql"]
  diffStatus := fun _ _ => [("scripts/b.sql", "A"), ("scripts/a.sql", "A")]
  fileTimestamp := fun f => if f = "scripts/a.sql" then 5 else 10

/-- C4: ordering — whenever discovery returns normally, the script list is
sorted ascending by the first-added commit timestamp, for every order in
which the diff lists the files; filtering the list (the pending-set
computation) preserves that order. -/
theorem getChangedScripts_sorted (env : GitEnv)
    (fromCommit toCommit scriptsDir : String) (scripts : List ScriptInfo)
    (h : GetChangedScripts env fromCommit toCommit scriptsDir = some scripts) :
    List.Pairwise (fun a b => a.timestamp ≤ b.timestamp) scripts ∧
      ∀ q : ScriptInfo → Bool,
        List.Pairwise (fun a b => a.timestamp ≤ b.timestamp)
          (scripts.filter q) := by
  rw [GetChangedScripts] at h
  split at h
  · exact absurd h (by simp)
  · rename_i l hl
    have hinj : List.insertionSort tsLE l = scripts := by
      injection h
    have hsorted : List.Sorted tsLE (List.insertionSort tsLE l) :=
      List.sorted_insertionSort tsLE l
    rw [hinj] at hsorted
    exact ⟨hsorted, fun q => List.Pairwise.filter q hsorted⟩

/-- Witness for C4: two scripts listed out of order by the diff come back
sorted by commit timestamp. -/
theorem getChangedScripts_sorted_witness :
    GetChangedScripts envOutOfOrder "c1" "c2" "scripts" =
      some [⟨"a.sql", "scripts/a.sql", 5⟩, ⟨"b.sql", "scripts/b.sql", 10⟩] ∧
    List.Pairwise (fun a b => a.timestamp ≤ b.timestamp)
      [(⟨"a.sql", "scripts/a.sql", 5⟩ : ScriptInfo),
        ⟨"b.sql", "scripts/b.sql", 10⟩] :=
  ⟨rfl,
    (getChangedScripts_sorted envOutOfOrder "c1" "c2" "scripts"
      [⟨"a.sql", "scripts/a.sql", 5⟩, ⟨"b.sql", "scripts/b.sql", 10⟩] rfl).1⟩

/-- Ledger evolution of an uninterrupted prefix of successful scripts:
each appends a success row without the terminator flag. -/
def appendSuccesses (ledger : List ScriptRecord) (gitID : String) :
    List String → List ScriptRecord
  | [] => ledger
  | n :: rest => appendSuccesses (appendRecord ledger n true false gitID) gitID rest

/-- C3: partial failure — when every script before position `i` of the
pending list succeeds and the `i`-th script's SQL execution errors, the
loop leaves the failing script's transaction effects rolled back (only the
prefix names reach `applied`), appends a `{completed := false,
endofbatch := false}` ledger row carrying the current revision id through
the direct (non-transactional) append, returns an error naming the failed
script, and attempts no script after position `i`. -/
theorem mainLoop_stops_at_failed_script (env : MigEnv) (current : String)
    (total skipped : Nat) (pre post : List ScriptInfo) (s : ScriptInfo)
    (succ : Nat) (st : DbState)
    (hpre : ∀ t ∈ pre, env.readOk t.name = true ∧ env.sqlOk t.name = true)
    (hread : env.readOk s.name = true) (hfail : env.sqlOk s.name = false) :
    mainLoop env current total skipped (pre ++ s :: post) succ st =
      (⟨appendRecord (appendSuccesses st.ledger current (pre.map (·.name)))
          s.name false false current,
        st.applied ++ pre.map (·.name)⟩,
       .error ("migration failed at script: " ++ s.name),
       pre.map (·.name) ++ [s.name],
       [⟨total, succ + pre.length, 1, skipped⟩]) := by
  induction pre generalizing succ st with
  | nil =>
    simp only [List.nil_append, mainLoop, executeScript, hread, hfail,
      Bool.not_true, Bool.false_eq_true, if_false, if_neg]
    simp [appendSuccesses]
  | cons t pre' ih =>
    obtain ⟨htr, hts⟩ := hpre t (List.mem_cons_self _ _)
    have hpre' : ∀ u ∈ pre', env.readOk u.name = true ∧ env.sqlOk u.name = true :=
      fun u hu => hpre u (List.mem_cons_of_mem _ hu)
    simp only [List.cons_append, mainLoop, executeScript, htr, hts,
      Bool.not_true, Bool.false_eq_true, if_false, if_true, if_neg, if_pos,
      List.append_eq]
    rw [ih _ _ hpre']
    simp [appendSuccesses, List.append_assoc]
    omega

/-- Ledger evolution of a fully successful batch: every script appends a
success row, the last one with the terminator flag set. -/
def appendBatch (ledger : List ScriptRecord) (gitID : String) :
    List ScriptInfo → List ScriptRecord
  | [] => ledger
  | [s] => appendRecord ledger s.name true true gitID
  | s :: rest => appendBatch (appendRecord ledger s.name true false gitID) gitID rest

lemma appendBatch_cons (ledger : List ScriptRecord) (gitID : String)
    (s : ScriptInfo) (rest : List ScriptInfo) :
    appendBatch ledger gitID (s :: rest) =
      appendBatch (appendRecord ledger s.name true (decide (rest = [])) gitID)
        gitID rest := by
  cases rest <;> simp [appendBatch]

lemma mainLoop_all_success_eq (env : MigEnv) (current : String)
    (total skipped : Nat) (p : List ScriptInfo) (succ : Nat) (st : DbState)
    (hok : ∀ s ∈ p, env.readOk s.name = true ∧ env.sqlOk s.name = true) :
    mainLoop env current total skipped p succ st =
      (⟨appendBatch st.ledger current p, st.applied ++ p.map (·.name)⟩,
        .ok (), p.map (·.name), []) := by
  induction p generalizing succ st with
  | nil => simp [mainLoop, appendBatch]
  | cons s rest ih =>
    obtain ⟨hr, hs⟩ := hok s (List.mem_cons_self _ _)
    have hok' : ∀ u ∈ rest, env.readOk u.name = true ∧ env.sqlOk u.name = true :=
      fun u hu => hok u (List.mem_cons_of_mem _ hu)
    simp only [mainLoop, executeScript, hr, hs, Bool.not_true,
      Bool.false_eq_true, if_false, if_true, if_neg, if_pos]
    rw [ih _ _ hok']
    simp [appendBatch_cons, List.append_assoc]

lemma appendBatch_decomp (ledger : List ScriptRecord) (gitID : String)
    (p : List ScriptInfo) :
    ∃ rows : List ScriptRecord,
      appendBatch ledger gitID p = ledger ++ rows ∧
      rows.map (·.scriptName) = p.map (·.name) ∧
      (p ≠ [] →
        rows.map (·.endofbatch) = List.replicate (p.length - 1) false ++ [true]) ∧
      ∀ row ∈ rows, row.lastgitid = some gitID := by
  induction p generalizing ledger with
  | nil => exact ⟨[], by simp [appendBatch], by simp, fun h => absurd rfl h, by simp⟩
  | cons s rest ih =>
    cases rest with
    | nil =>
      refine ⟨[⟨nextSno ledger, s.name, true, true, some gitID⟩],
        by simp [appendBatch, appendRecord], by simp, fun _ => by simp, ?_⟩
      intro row hrow
      rcases List.mem_cons.mp hrow with rfl | hmem
      · rfl
      · simp at hmem
    | cons r rest' =>
      obtain ⟨rows', h1, h2, h3, h4⟩ :=
        ih (appendRecord ledger s.name true false gitID)
      refine ⟨⟨nextSno ledger, s.name, true, false, some gitID⟩ :: rows',
        ?_, by simpa using h2, ?_, ?_⟩
      · rw [appendBatch_cons]
        simp only [decide_eq_false (by simp : ¬(r :: rest' = []))]
        rw [h1]
        simp [appendRecord]
      · intro _
        have h3' := h3 (by simp)
        simp only [List.map_cons, h3']
        simp [List.replicate_succ]
      · intro row hrow
        rcases List.mem_cons.mp hrow with rfl | hmem
        · rfl
        · exact h4 row hmem

/-- C5: batch-terminator placement — for a non-empty pending list whose
scripts all succeed, the loop returns ok and appends exactly one row per
script, in order; the terminator flag is set on the last appended row and
unset on every other, and every appended row carries the run's current
revision id. -/
theorem mainLoop_success_terminator (env : MigEnv) (current : String)
    (total skipped : Nat) (p : List ScriptInfo) (succ : Nat) (st : DbState)
    (hne : p ≠ [])
    (hok : ∀ s ∈ p, env.readOk s.name = true ∧ env.sqlOk s.name = true) :
    ∃ rows : List ScriptRecord,
      (mainLoop env current total skipped p succ st).1.ledger =
        st.ledger ++ rows ∧
      (mainLoop env current total skipped p succ st).2.1 = .ok () ∧
      rows.map (·.scriptName) = p.map (·.name) ∧
      rows.map (·.endofbatch) = List.replicate (p.length - 1) false ++ [true] ∧
      (∀ row ∈ rows, row.lastgitid = some current) := by
  obtain ⟨rows, h1, h2, h3, h4⟩ := appendBatch_decomp st.ledger current p
  rw [mainLoop_all_success_eq env current total skipped p succ st hok]
  exact ⟨rows, h1, rfl, h2, h3 hne, h4⟩

/-- Environment shared by the loop witnesses: every script is readable,
only "b.sql" fails to execute. -/
def envHalfFail : MigEnv where
  git :=
    { isRepo := true
      currentCommit := "dddddddd"
      emptyTree := "4b825dc6"
      diffNames := fun _ _ => []
      diffStatus := fun _ _ => []
      fileTimestamp := fun _ => 0 }
  scriptsDir := "scripts"
  missedScripts := none
  readOk := fun _ => true
  sqlOk := fun n => !(n == "b.sql")

/-- Witness for C3: of three pending scripts the second fails; the third
is never attempted, the failure row is recorded, the error names the
failed script. -/
theorem mainLoop_stops_at_failed_script_witness :
    (∀ t ∈ [(⟨"a.sql", "scripts/a.sql", 1⟩ : ScriptInfo)],
        envHalfFail.readOk t.name = true ∧ envHalfFail.sqlOk t.name = true) ∧
    envHalfFail.readOk "b.sql" = true ∧ envHalfFail.sqlOk "b.sql" = false ∧
    mainLoop envHalfFail "dddddddd" 3 0
        [⟨"a.sql", "scripts/a.sql", 1⟩, ⟨"b.sql", "scripts/b.sql", 2⟩,
          ⟨"c.sql", "scripts/c.sql", 3⟩] 0 ⟨[], []⟩ =
      (⟨appendRecord (appendSuccesses [] "dddddddd" ["a.sql"])
          "b.sql" false false "dddddddd", ["a.sql"]⟩,
        .error "migration failed at script: b.sql",
        ["a.sql", "b.sql"], [⟨3, 1, 1, 0⟩]) :=
  ⟨by decide, by decide, by decide,
    mainLoop_stops_at_failed_script envHalfFail "dddddddd" 3 0
      [⟨"a.sql", "scripts/a.sql", 1⟩] [⟨"c.sql", "scripts/c.sql", 3⟩]
      ⟨"b.sql", "scripts/b.sql", 2⟩ 0 ⟨[], []⟩
      (by decide) (by decide) (by decide)⟩

/-- Witness for C5: two successful scripts append exactly two rows, the
terminator flag only on the second. -/
theorem mainLoop_success_terminator_witness :
    (∀ s ∈ [(⟨"a.sql", "scripts/a.sql", 1⟩ : ScriptInfo),
            ⟨"c.sql", "scripts/c.sql", 3⟩],
        envHalfFail.readOk s.name = true ∧ envHalfFail.sqlOk s.name = true) ∧
    ∃ rows : List ScriptRecord,
      (mainLoop envHalfFail "dddddddd" 2 0
          [⟨"a.sql", "scripts/a.sql", 1⟩, ⟨"c.sql", "scripts/c.sql", 3⟩]
          0 ⟨[], []⟩).1.ledger = [] ++ rows ∧
      (mainLoop envHalfFail "dddddddd" 2 0
          [⟨"a.sql", "scripts/a.sql", 1⟩, ⟨"c.sql", "scripts/c.sql", 3⟩]
          0 ⟨[], []⟩).2.1 = .ok () ∧
      rows.map (·.scriptName) = ["a.sql", "c.sql"] ∧
      rows.map (·.endofbatch) = [false, true] ∧
      (∀ row ∈ rows, row.lastgitid = some "dddddddd") :=
  ⟨by decide,
    mainLoop_success_terminator envHalfFail "dddddddd" 2 0
      [⟨"a.sql", "scripts/a.sql", 1⟩, ⟨"c.sql", "scripts/c.sql", 3⟩]
      0 ⟨[], []⟩ (by decide) (by decide)⟩

/-- C6: idempotence — when the checkpoint revision equals the current
revision (so git reports an empty diff between them), no missed-scripts
file is given and the repository checks pass, a run leaves the database
state — in particular the ledger, its row count and ordinals — exactly as
it found it. -/
theorem run_idempotent_no_new_commits (env : MigEnv) (st : DbState)
    (hmiss : env.missedScripts = none)
    (hrepo : env.git.isRepo = true)
    (hcp : GetLastSuccessfulCommit st.ledger = .ok env.git.currentCommit)
    (hlen : 8 ≤ env.git.currentCommit.utf8ByteSize)
    (hdiff : env.git.diffNames env.git.currentCommit env.git.currentCommit = []) :
    (runModel env st).state = st ∧ (runModel env st).state.ledger = st.ledger := by
  have hne : env.git.currentCommit ≠ "" := by
    intro hcc
    rw [hcc] at hlen
    exact absurd hlen (by decide)
  have hnotlt : ¬ env.git.currentCommit.utf8ByteSize < 8 := by omega
  have hcond : ¬(env.git.currentCommit ≠ "" ∧
      env.git.currentCommit.utf8ByteSize < 8) := fun hv => hnotlt hv.2
  have hmissed : executeMissedScripts env st = (st, .ok (), []) := by
    simp [executeMissedScripts, hmiss]
  have hscripts : GetChangedScripts env.git env.git.currentCommit
      env.git.currentCommit env.scriptsDir = some [] := by
    simp [GetChangedScripts, DiffFileNames, hne, hdiff, collectScripts]
  have hmain : (runModel env st).state = st := by
    unfold runModel
    rw [hrepo, hcp]
    simp only [Bool.not_true, Bool.false_eq_true, if_false, hcond,
      if_neg, hmissed, hnotlt]
    cases hcf : CheckFileModifications env.git env.git.currentCommit
        env.git.currentCommit (GetExecutedScriptNames st.ledger) with
    | error e => simp [hcf]
    | ok u =>
      cases u
      cases hch : CheckHalfCommittedFiles (GetHalfCommittedScripts st.ledger) with
      | error e => simp [hcf, hch]
      | ok v =>
        cases v
        simp [hcf, hch, hscripts]
  exact ⟨hmain, by rw [hmain]⟩

/-- Witness for C6: a second run over a ledger whose checkpoint matches
the current commit touches nothing. -/
theorem run_idempotent_no_new_commits_witness :
    GetLastSuccessfulCommit [⟨1, "a.sql", true, true, some "dddddddd"⟩] =
      .ok envHalfFail.git.currentCommit ∧
    (runModel envHalfFail
        ⟨[⟨1, "a.sql", true, true, some "dddddddd"⟩], ["a.sql"]⟩).state =
      ⟨[⟨1, "a.sql", true, true, some "dddddddd"⟩], ["a.sql"]⟩ :=
  ⟨rfl,
    (run_idempotent_no_new_commits envHalfFail
      ⟨[⟨1, "a.sql", true, true, some "dddddddd"⟩], ["a.sql"]⟩
      rfl rfl rfl (by decide) rfl).1⟩

lemma executeScript_ledger_ext (env : MigEnv) (st : DbState)
    (n g : String) (il : Bool) :
    ∃ ext, (executeScript env st n g il).1.ledger = st.ledger ++ ext := by
  unfold executeScript
  split
  · exact ⟨[], by simp⟩
  · split
    · exact ⟨_, rfl⟩
    · exact ⟨_, rfl⟩

lemma missedLoop_ledger_ext (env : MigEnv) (cur : String) (ex : List String)
    (names : List String) (st : DbState) :
    ∃ ext, (missedLoop env cur ex names st).1.ledger = st.ledger ++ ext := by
  induction names generalizing st with
  | nil => exact ⟨[], by simp [missedLoop]⟩
  | cons n rest ih =>
    rw [missedLoop]
    split
    · exact ih st
    · rcases hex : executeScript env st n cur (decide (rest = [])) with ⟨st', r⟩
      obtain ⟨e1, he1⟩ : ∃ ext, st'.ledger = st.ledger ++ ext := by
        have hx := executeScript_ledger_ext env st n cur (decide (rest = []))
        rwa [hex] at hx
      cases r with
      | ok u =>
        cases u
        obtain ⟨e2, he2⟩ := ih st'
        refine ⟨e1 ++ e2, ?_⟩
        simp only [hex]
        rw [he2, he1, List.append_assoc]
      | error e =>
        refine ⟨e1, ?_⟩
        simp only [hex]
        exact he1

lemma executeMissedScripts_ledger_ext (env : MigEnv) (st : DbState) :
    ∃ ext, (executeMissedScripts env st).1.ledger = st.ledger ++ ext := by
  unfold executeMissedScripts
  cases hm : env.missedScripts with
  | none => exact ⟨[], by simp⟩
  | some names =>
    dsimp only
    by_cases hn : names = []
    · exact ⟨[], by simp [hn]⟩
    · rw [if_neg hn]
      exact missedLoop_ledger_ext env env.git.currentCommit
        (GetExecutedScriptNames st.ledger) names st

lemma executedNames_append (l ext : List ScriptRecord) (name : String)
    (h : name ∈ GetExecutedScriptNames l) :
    name ∈ GetExecutedScriptNames (l ++ ext) := by
  simp only [GetExecutedScriptNames, List.filter_append, List.map_append,
    List.mem_append]
  exact Or.inl h

lemma missedLoop_attempted_not_executed (env : MigEnv) (cur : String)
    (ex : List String) (names : List String) (st : DbState) :
    ∀ n ∈ (missedLoop env cur ex names st).2.2, ex.contains n = false := by
  induction names generalizing st with
  | nil => simp [missedLoop]
  | cons n rest ih =>
    rw [missedLoop]
    split
    · exact ih st
    · rename_i hc
      have hcf : ex.contains n = false := by
        cases hv : ex.contains n with
        | false => rfl
        | true => exact absurd hv hc
      rcases hex : executeScript env st n cur (decide (rest = [])) with ⟨st', r⟩
      cases r with
      | ok u =>
        cases u
        intro n' hn'
        simp only [hex] at hn'
        rcases List.mem_cons.mp hn' with rfl | hmem
        · exact hcf
        · exact ih st' n' hmem
      | error e =>
        intro n' hn'
        simp only [hex] at hn'
        rcases List.mem_cons.mp hn' with rfl | hmem
        · exact hcf
        · simp at hmem

lemma executeMissedScripts_attempted (env : MigEnv) (st : DbState) :
    ∀ n ∈ (executeMissedScripts env st).2.2,
      (GetExecutedScriptNames st.ledger).contains n = false := by
  unfold executeMissedScripts
  cases hm : env.missedScripts with
  | none => simp
  | some names =>
    dsimp only
    by_cases hn : names = []
    · simp [hn]
    · rw [if_neg hn]
      exact missedLoop_attempted_not_executed env env.git.currentCommit
        (GetExecutedScriptNames st.ledger) names st

lemma mainLoop_attempted_sub (env : MigEnv) (cur : String)
    (total skipped : Nat) (p : List ScriptInfo) (succ : Nat) (st : DbState) :
    ∀ n ∈ (mainLoop env cur total skipped p succ st).2.2.1,
      n ∈ p.map (·.name) := by
  induction p generalizing succ st with
  | nil => simp [mainLoop]
  | cons s rest ih =>
    rw [mainLoop]
    rcases hex : executeScript env st s.name cur (decide (rest = [])) with ⟨st', r⟩
    cases r with
    | ok u =>
      cases u
      intro n hn
      simp only at hn
      rcases List.mem_cons.mp hn with rfl | hmem
      · simp
      · simp only [List.map_cons, List.mem_cons]
        exact Or.inr (ih (succ + 1) st' n hmem)
    | error e =>
      intro n hn
      simp only at hn
      rcases List.mem_cons.mp hn with rfl | hmem
      · simp
      · simp at hmem

lemma missedLoop_all_executed (env : MigEnv) (cur : String)
    (ex : List String) (names : List String) (st : DbState)
    (h : ∀ n ∈ names, ex.contains n = true) :
    missedLoop env cur ex names st = (st, .ok (), []) := by
  induction names generalizing st with
  | nil => rfl
  | cons n rest ih =>
    rw [missedLoop, if_pos (h n (List.mem_cons_self _ _))]
    exact ih st (fun n' hn' => h n' (List.mem_cons_of_mem _ hn'))

lemma executeMissedScripts_all_executed (env : MigEnv) (st : DbState)
    (names : List String) (hm : env.missedScripts = some names)
    (hall : ∀ n ∈ names, n ∈ GetExecutedScriptNames st.ledger) :
    executeMissedScripts env st = (st, .ok (), []) := by
  unfold executeMissedScripts
  rw [hm]
  dsimp only
  by_cases hn : names = []
  · rw [if_pos hn]
  · rw [if_neg hn]
    exact missedLoop_all_executed env env.git.currentCommit
      (GetExecutedScriptNames st.ledger) names st
      (fun n hnn => List.elem_iff.mpr (hall n hnn))

/-- C7: no re-execution — a script already recorded as completed is never
attempted again: the discovery path filters it out of the pending set, so
it is neither among the loop's attempted scripts nor among the
missed-scripts attempts; and a missed-scripts file whose entries are all
completed is skipped entirely, with no state change and no error. -/
theorem completed_scripts_never_reexecuted (env : MigEnv) (st : DbState)
    (name : String) (h : name ∈ GetExecutedScriptNames st.ledger) :
    (name ∉ (runModel env st).attempted ∧
      name ∉ (runModel env st).missedAttempted) ∧
    (∀ names, env.missedScripts = some names →
      (∀ n ∈ names, n ∈ GetExecutedScriptNames st.ledger) →
      executeMissedScripts env st = (st, Except.ok (), [])) := by
  refine ⟨?_, fun names hm hall =>
    executeMissedScripts_all_executed env st names hm hall⟩
  unfold runModel
  split
  · simp
  · split
    · simp
    · split
      · simp
      · rcases hms : executeMissedScripts env st with ⟨st1, mres, matt⟩
        have hct : (GetExecutedScriptNames st.ledger).contains name = true :=
          List.elem_iff.mpr h
        have hmatt : name ∉ matt := by
          intro hmem
          have hx := executeMissedScripts_attempted env st
          rw [hms] at hx
          have hcf := hx name hmem
          rw [hcf] at hct
          exact Bool.false_ne_true hct
        obtain ⟨ext, hext⟩ : ∃ ext, st1.ledger = st.ledger ++ ext := by
          have hx := executeMissedScripts_ledger_ext env st
          rwa [hms] at hx
        have hmem1 : name ∈ GetExecutedScriptNames st1.ledger := by
          rw [hext]
          exact executedNames_append _ _ _ h
        cases mres with
        | error e => exact ⟨by simp, hmatt⟩
        | ok u =>
          cases u
          dsimp only
          split
          · exact ⟨by simp, hmatt⟩
          · split
            · exact ⟨by simp, hmatt⟩
            · split
              · exact ⟨by simp, hmatt⟩
              · split
                · exact ⟨by simp, hmatt⟩
                · rename_i scripts hscr
                  split
                  · exact ⟨by simp, hmatt⟩
                  · have hkey : ∀ st2 r2 att2 sums2,
                        mainLoop env env.git.currentCommit scripts.length
                          (scripts.length - (List.filter
                            (fun s => !(GetExecutedScriptNames st1.ledger).contains s.name)
                            scripts).length)
                          (List.filter
                            (fun s => !(GetExecutedScriptNames st1.ledger).contains s.name)
                            scripts) 0 st1 = (st2, r2, att2, sums2) →
                        name ∉ att2 := by
                      intro st2 r2 att2 sums2 heq hmem
                      have hsub := mainLoop_attempted_sub env env.git.currentCommit
                        scripts.length
                        (scripts.length - (List.filter
                          (fun s => !(GetExecutedScriptNames st1.ledger).contains s.name)
                          scripts).length)
                        (List.filter
                          (fun s => !(GetExecutedScriptNames st1.ledger).contains s.name)
                          scripts) 0 st1
                      rw [heq] at hsub
                      have hmm := hsub name hmem
                      simp only [List.mem_map] at hmm
                      obtain ⟨si, hsi, hsiname⟩ := hmm
                      obtain ⟨hsin, hsif⟩ := List.mem_filter.mp hsi
                      rw [hsiname] at hsif
                      have hctn :
                          (GetExecutedScriptNames st1.ledger).contains name = true :=
                        List.elem_iff.mpr hmem1
                      rw [hctn] at hsif
                      simp at hsif
                    split
                    · rename_i st2 att2 sums2 heq
                      exact ⟨hkey st2 (Except.ok ()) att2 sums2 heq, hmatt⟩
                    · rename_i st2 e att2 sums2 heq
                      exact ⟨hkey st2 (Except.error e) att2 sums2 heq, hmatt⟩

/-- Environment of the C7 witness: a missed-scripts file listing an
already-completed script. -/
def envMissedDone : MigEnv :=
  { envHalfFail with missedScripts := some ["a.sql"] }

/-- Witness for C7: the completed script "a.sql", also listed in the
missed-scripts file, is attempted by neither path and the missed phase
changes nothing. -/
theorem completed_scripts_never_reexecuted_witness :
    ("a.sql" ∈ GetExecutedScriptNames
        [⟨1, "a.sql", true, true, some "dddddddd"⟩]) ∧
    ("a.sql" ∉ (runModel envMissedDone
        ⟨[⟨1, "a.sql", true, true, some "dddddddd"⟩], ["a.sql"]⟩).attempted ∧
      "a.sql" ∉ (runModel envMissedDone
        ⟨[⟨1, "a.sql", true, true, some "dddddddd"⟩], ["a.sql"]⟩).missedAttempted) ∧
    executeMissedScripts envMissedDone
        ⟨[⟨1, "a.sql", true, true, some "dddddddd"⟩], ["a.sql"]⟩ =
      (⟨[⟨1, "a.sql", true, true, some "dddddddd"⟩], ["a.sql"]⟩,
        Except.ok (), []) :=
  ⟨by decide,
    (completed_scripts_never_reexecuted envMissedDone
      ⟨[⟨1, "a.sql", true, true, some "dddddddd"⟩], ["a.sql"]⟩
      "a.sql" (by decide)).1,
    (completed_scripts_never_reexecuted envMissedDone
      ⟨[⟨1, "a.sql", true, true, some "dddddddd"⟩], ["a.sql"]⟩
      "a.sql" (by decide)).2 ["a.sql"] rfl (by decide)⟩

lemma mainLoop_attempted_ne_nil (env : MigEnv) (cur : String)
    (total skipped : Nat) (s : ScriptInfo) (rest : List ScriptInfo)
    (succ : Nat) (st : DbState) :
    (mainLoop env cur total skipped (s :: rest) succ st).2.2.1 ≠ [] := by
  rw [mainLoop]
  rcases hex : executeScript env st s.name cur (decide (rest = [])) with ⟨st', r⟩
  cases r with
  | ok u => cases u; simp
  | error e => simp

lemma mainLoop_error_summaries_ne_nil (env : MigEnv) (cur : String)
    (total skipped : Nat) (p : List ScriptInfo) (succ : Nat) (st : DbState)
    (e : String)
    (he : (mainLoop env cur total skipped p succ st).2.1 = .error e) :
    (mainLoop env cur total skipped p succ st).2.2.2 ≠ [] := by
  induction p generalizing succ st with
  | nil => simp [mainLoop] at he
  | cons s rest ih =>
    rw [mainLoop] at he ⊢
    rcases hex : executeScript env st s.name cur (decide (rest = [])) with ⟨st', r⟩
    rw [hex] at he
    cases r with
    | ok u =>
      cases u
      exact ih (succ + 1) st' he
    | error e' => simp

/-- C8 (amended): the run summary is emitted exactly when the execution
loop attempts at least one pending script — on script failure and on loop
completion; terminal states reached before the loop (validation failures,
missed-scripts failures, panics, empty pending set) return without
emitting any summary. -/
theorem run_summary_iff_attempted (env : MigEnv) (st : DbState) :
    ((runModel env st).summaries = [] ↔ (runModel env st).attempted = []) := by
  unfold runModel
  split
  · simp
  · split
    · simp
    · split
      · simp
      · rcases hms : executeMissedScripts env st with ⟨st1, mres, matt⟩
        cases mres with
        | error e => simp
        | ok u =>
          cases u
          dsimp only
          split
          · simp
          · split
            · simp
            · split
              · simp
              · split
                · simp
                · rename_i scripts hscr
                  split
                  · simp
                  · rename_i hpne
                    split
                    · rename_i st2 att2 sums2 heq
                      have hatt : att2 ≠ [] := by
                        obtain ⟨s0, rest0, hcons⟩ :=
                          List.exists_cons_of_ne_nil hpne
                        rw [hcons] at heq
                        have hx := mainLoop_attempted_ne_nil env
                          env.git.currentCommit scripts.length
                          (scripts.length - (s0 :: rest0).length) s0 rest0 0 st1
                        rw [heq] at hx
                        simpa using hx
                      simp [hatt]
                    · rename_i st2 e att2 sums2 heq
                      have hatt : att2 ≠ [] := by
                        obtain ⟨s0, rest0, hcons⟩ :=
                          List.exists_cons_of_ne_nil hpne
                        rw [hcons] at heq
                        have hx := mainLoop_attempted_ne_nil env
                          env.git.currentCommit scripts.length
                          (scripts.length - (s0 :: rest0).length) s0 rest0 0 st1
                        rw [heq] at hx
                        simpa using hx
                      have hsums : sums2 ≠ [] := by
                        have hx := mainLoop_error_summaries_ne_nil env
                          env.git.currentCommit scripts.length
                          (scripts.length - (List.filter
                            (fun s => !(GetExecutedScriptNames st1.ledger).contains s.name)
                            scripts).length)
                          (List.filter
                            (fun s => !(GetExecutedScriptNames st1.ledger).contains s.name)
                            scripts) 0 st1 e (by rw [heq])
                        rw [heq] at hx
                        simpa using hx
                      simp [hatt, hsums]

end DbMigration
